import Mathlib

/-!
A shallow embedding, in Lean 4, of the VIPR certificate tools
(`viprchk.cpp`, `viprcomp_parallel.cpp`, `incompletify.cpp`).

Rationals (`mpq_class` / SoPlex `Rational`) are modelled by `ℚ`.
Sparse vectors (`SVectorGMP`, `SVectorRat`, `DSVectorRational`) are modelled
by association lists; the `std::map`-backed ones are kept with strictly
ascending keys by the insertion helpers, mirroring `std::map` iteration
order.  Fallible routines return `Option`/`Bool` exactly where the C++
reports an error and aborts.
-/

namespace Vipr

/-- Integrality test for rationals, as in `isInteger` of viprchk.cpp:
`q == floor(q)`. -/
def isIntegerQ (q : ℚ) : Bool := decide (q = ((⌊q⌋ : ℤ) : ℚ))

/-- Sign of a rational, as GMP `sgn` / SoPlex `Rational::sign()`:
1, -1 or 0. -/
def qsgn (q : ℚ) : Int := if 0 < q then 1 else if q < 0 then -1 else 0

/-- Sparse coefficient vectors over the variables: association lists from
variable index to rational value. -/
abbrev SVec := List (ℕ × ℚ)

/-- Lookup with default 0, as `Constraint::getCoef` / SoPlex
`operator[]`: the value stored for the index, 0 when absent. -/
def svLookup (v : SVec) (i : ℕ) : ℚ :=
  match v with
  | [] => 0
  | p :: t => if p.1 = i then p.2 else svLookup t i

/-- Scalar product of two sparse vectors, as `scalarProduct` of
viprchk.cpp: sum over the entries of `u` of the product with the matching
entry of `v` (absent entries of `v` contribute nothing). -/
def scalarProduct (u v : SVec) : ℚ := (u.map (fun p => p.2 * svLookup v p.1)).sum

/-- The constraint record of viprchk.cpp (`class Constraint`): a sense
(-1 is `≤`, 0 is `=`, 1 is `≥`), a right-hand side, a coefficient vector,
the assumption flag, the assumption scope (`_assumptionList`, a
`map<int,bool>`, modelled as a `Finset ℤ`) and the trashed flag. -/
structure Constraint where
  sense : Int := 0
  rhs : ℚ := 0
  coef : SVec := []
  isAssumption : Bool := false
  scope : Finset ℤ := ∅
  trashed : Bool := false
deriving DecidableEq, Inhabited

/-- Falsehood test of viprchk.cpp (`Constraint::_isFalsehood`): empty
coefficient vector and infeasible sign of the right-hand side. -/
def isFalsehood (c : Constraint) : Prop :=
  c.coef = [] ∧ ((c.sense ≤ 0 ∧ c.rhs < 0) ∨ (0 ≤ c.sense ∧ 0 < c.rhs))

instance (c : Constraint) : Decidable (isFalsehood c) := by
  unfold isFalsehood; infer_instance

/-- Dominance test of viprchk.cpp (`Constraint::dominates`): a falsehood
dominates everything; otherwise the coefficient vectors must be equal and
the senses and sides must imply the other constraint. -/
def dominates (a b : Constraint) : Prop :=
  isFalsehood a ∨
    (a.coef = b.coef ∧
      ((0 < b.sense ∧ 0 ≤ a.sense ∧ b.rhs ≤ a.rhs) ∨
       (b.sense < 0 ∧ a.sense ≤ 0 ∧ a.rhs ≤ b.rhs) ∨
       (b.sense = 0 ∧ a.sense = 0 ∧ a.rhs = b.rhs)))

instance (a b : Constraint) : Decidable (dominates a b) := by
  unfold dominates; infer_instance

/-- Rounding operation of viprchk.cpp (`Constraint::round`): scans the
coefficient entries and fails on an integer variable whose coefficient is
not an integer; on success floors the right-hand side for `≤` senses and
ceils it for `≥` senses.  (Entries on non-integer variables are not
examined by the loop.) -/
def roundC (isInt : ℕ → Bool) (c : Constraint) : Option Constraint :=
  if c.coef.any (fun p => isInt p.1 && !isIntegerQ p.2) then none
  else some { c with rhs :=
    if c.sense < 0 then ((⌊c.rhs⌋ : ℤ) : ℚ)
    else if 0 < c.sense then ((⌈c.rhs⌉ : ℤ) : ℚ)
    else c.rhs }

/-- C1.  The rounding operation of `Constraint::round` evaluated at the
constraint `x ≤ 1/2` for a single continuous variable `x` (`isInt` is
everywhere false): the rounding succeeds and floors the right-hand side to
0 although a variable with a nonzero coefficient is not an integer
variable and its coefficient 1/2 is not an integer, where the claim (and
Chvátal–Gomory soundness) requires the rounding to fail. -/
theorem roundC_succeeds_on_continuous_variable :
    roundC (fun _ => false)
        { sense := -1, rhs := (1 : ℚ)/2, coef := [(0, (1 : ℚ)/2)] }
      = some { sense := -1, rhs := 0, coef := [(0, (1 : ℚ)/2)] } := by
  have hfl : (⌊(1 : ℚ)/2⌋ : ℤ) = 0 := by
    rw [Int.floor_eq_iff]
    norm_num
  simp [roundC, isIntegerQ, hfl]
  norm_num

/-- C6.  Dominance monotonicity of `Constraint::dominates`: if `A`
dominates `B` and `B` dominates `C` and `A` and `C` have equal coefficient
vectors (canonicalisation is the identity in the `ℚ` model), then `A`
dominates `C`. -/
theorem dominates_trans (a b c : Constraint) (h1 : dominates a b)
    (h2 : dominates b c) (hac : a.coef = c.coef) : dominates a c := by
  rcases h1 with hfa | ⟨hab, hcond1⟩
  · exact Or.inl hfa
  · rcases h2 with hfb | ⟨hbc, hcond2⟩
    · -- b is a falsehood with the same coefficient vector as a, which
      -- forces a to be a falsehood as well.
      rcases hfb with ⟨hbe, hbs⟩
      rw [hbe] at hab
      refine Or.inl ⟨hab, ?_⟩
      rcases hcond1 with ⟨hs, hs2, hr⟩ | ⟨hs, hs2, hr⟩ | ⟨hs, hs2, hr⟩
      · rcases hbs with ⟨hb1, hb2⟩ | ⟨hb1, hb2⟩
        · omega
        · exact Or.inr ⟨hs2, by linarith⟩
      · rcases hbs with ⟨hb1, hb2⟩ | ⟨hb1, hb2⟩
        · exact Or.inl ⟨hs2, by linarith⟩
        · omega
      · rcases hbs with ⟨hb1, hb2⟩ | ⟨hb1, hb2⟩
        · exact Or.inl ⟨by omega, by linarith⟩
        · exact Or.inr ⟨by omega, by linarith⟩
    · refine Or.inr ⟨hac, ?_⟩
      rcases hcond2 with ⟨ht, ht2, htr⟩ | ⟨ht, ht2, htr⟩ | ⟨ht, ht2, htr⟩
      · rcases hcond1 with ⟨hs, hs2, hr⟩ | ⟨hs, hs2, hr⟩ | ⟨hs, hs2, hr⟩
        · exact Or.inl ⟨ht, hs2, by linarith⟩
        · omega
        · exact Or.inl ⟨ht, by omega, by linarith⟩
      · rcases hcond1 with ⟨hs, hs2, hr⟩ | ⟨hs, hs2, hr⟩ | ⟨hs, hs2, hr⟩
        · omega
        · exact Or.inr (Or.inl ⟨ht, hs2, by linarith⟩)
        · exact Or.inr (Or.inl ⟨ht, by omega, by linarith⟩)
      · rcases hcond1 with ⟨hs, hs2, hr⟩ | ⟨hs, hs2, hr⟩ | ⟨hs, hs2, hr⟩
        · omega
        · omega
        · exact Or.inr (Or.inr ⟨ht, hs2, by rw [hr, htr]⟩)

/-- Unsplit check of viprchk.cpp (`canUnsplit`), taking the cited
constraints already fetched from the global constraint vector (the fetch
itself is modelled in `unsLookups`): fails on trashed citations, requires
both branch constraints to dominate the claimed one, computes the
resulting assumption scope as the union of the two branch scopes with the
respective assumption index erased, and then checks that the two
assumption constraints have opposite senses, right-hand sides that tile
the integer line, equal coefficient vectors, and integer coefficients on
integer variables.  On success it returns the resulting scope.  (Note the
source re-checks `c2.isTrashed()` where one would expect `branchAsm2`;
the model mirrors that.) -/
def canUnsplit (isInt : ℕ → Bool) (toDer c1 c2 bA1 bA2 : Constraint)
    (a1 a2 : ℤ) : Option (Finset ℤ) :=
  if c1.trashed then none
  else if c2.trashed then none
  else if ¬ (dominates c1 toDer ∧ dominates c2 toDer) then none
  else if bA1.trashed then none
    else if c2.trashed then none
    else if ¬ bA1.sense * bA2.sense = -1 then none
    else if ¬ (if bA1.sense < 0 then bA1.rhs + 1 = bA2.rhs
               else bA1.rhs = bA2.rhs + 1) then none
    else if ¬ bA1.coef = bA2.coef then none
    else if ¬ ∀ p ∈ bA1.coef, isInt p.1 = true ∧ isIntegerQ p.2 = true then none
    else some ((c1.scope.erase a1) ∪ (c2.scope.erase a2))

/-- C4.  Unsplit scope elimination: whenever `canUnsplit` accepts a
`uns(c1,a1,c2,a2)` step, the assumption scope it records for the derived
constraint equals the union of the scope of `c1` with `a1` removed and
the scope of `c2` with `a2` removed. -/
theorem canUnsplit_scope (isInt : ℕ → Bool) (toDer c1 c2 bA1 bA2 : Constraint)
    (a1 a2 : ℤ) (al : Finset ℤ)
    (h : canUnsplit isInt toDer c1 c2 bA1 bA2 a1 a2 = some al) :
    al = (c1.scope.erase a1) ∪ (c2.scope.erase a2) := by
  unfold canUnsplit at h
  split_ifs at h <;> simp_all

/-- C4 witness.  The scope theorem applied to a concrete accepted unsplit
step: branches `x ≤ 0` (scope `{0}`) and `x ≤ 5` (scope `{1}`) both
dominate the claimed `x ≤ 5`, the assumptions `x ≤ 0` and `x ≥ 1` form an
integer disjunction, and the resulting scope is empty. -/
theorem canUnsplit_scope_witness :
    (∅ : Finset ℤ) = (({0} : Finset ℤ).erase 0) ∪ (({1} : Finset ℤ).erase 1) :=
  canUnsplit_scope (fun _ => true)
    { sense := -1, rhs := 5, coef := [(0, 1)] }
    { sense := -1, rhs := 0, coef := [(0, 1)], scope := {0} }
    { sense := -1, rhs := 5, coef := [(0, 1)], scope := {1} }
    { sense := -1, rhs := 0, coef := [(0, 1)], isAssumption := true }
    { sense := 1, rhs := 1, coef := [(0, 1)], isAssumption := true }
    0 1 ∅ (by norm_num [canUnsplit, dominates, isFalsehood, isIntegerQ])

/-- Sorted insert-or-assign on an association list with integer keys:
the behaviour of `mult[index] = a` on a `std::map<int, mpq_class>`. -/
def assocSet (i : ℤ) (a : ℚ) : List (ℤ × ℚ) → List (ℤ × ℚ)
  | [] => [(i, a)]
  | p :: t =>
    if i < p.1 then (i, a) :: p :: t
    else if i = p.1 then (i, a) :: t
    else p :: assocSet i a t

/-- Sense of a cited constraint, `constraint[index].getSense()` (callers
establish that the index is in range). -/
def senseAt (cons : List Constraint) (i : ℤ) : Int :=
  ((cons.get? i.toNat).getD default).sense

/-- Loop of `readMultipliers` of viprchk.cpp, carrying the current
implied sense and the multiplier map: a negative index is an error, a
zero multiplier is skipped, the multiplier is stored, an out-of-range
index is an error (the range test of the instrumented build), and the
signed sense `constraint[index].getSense() * sgn(a)` must agree with the
sense collected so far (a zero signed sense never conflicts; the first
nonzero one is adopted). -/
def readMultipliersGo (cons : List Constraint) :
    Int → List (ℤ × ℚ) → List (ℤ × ℚ) → Option (Int × List (ℤ × ℚ))
  | sense, mult, [] => some (sense, mult)
  | sense, mult, (i, a) :: rest =>
    if i < 0 then none
    else if a = 0 then readMultipliersGo cons sense mult rest
    else
      if (cons.length : ℤ) ≤ i then none
      else
        let t := senseAt cons i * qsgn a
        if sense = 0 then readMultipliersGo cons t (assocSet i a mult) rest
        else if t ≠ 0 ∧ sense ≠ t then none
        else readMultipliersGo cons sense (assocSet i a mult) rest

/-- Multiplier reader of viprchk.cpp (`readMultipliers`), used by `lin`
and `rnd` derivations: starts with sense 0 and an empty multiplier map. -/
def readMultipliers (cons : List Constraint) (pairs : List (ℤ × ℚ)) :
    Option (Int × List (ℤ × ℚ)) :=
  readMultipliersGo cons 0 [] pairs

/-- Signed sense terms of a multiplier list: for each term with a nonzero
multiplier, the product `sense(con[i]) * sgn(a)`, keeping only the
nonzero products (terms with a zero multiplier or an equality-sense
constraint are discarded). -/
def signedSenses (cons : List Constraint) : List (ℤ × ℚ) → List Int
  | [] => []
  | (i, a) :: rest =>
    if a = 0 then signedSenses cons rest
    else if senseAt cons i * qsgn a = 0 then signedSenses cons rest
    else (senseAt cons i * qsgn a) :: signedSenses cons rest

theorem allEq_cons_iff (t : Int) (l : List Int) :
    (∀ x ∈ l, x = t) ↔ (∀ x ∈ t :: l, ∀ y ∈ t :: l, x = y) := by
  constructor
  · intro hall x hx y hy
    have hxt : x = t := by
      rcases List.mem_cons.mp hx with h1 | h1
      · exact h1
      · exact hall x h1
    have hyt : y = t := by
      rcases List.mem_cons.mp hy with h1 | h1
      · exact h1
      · exact hall y h1
    rw [hxt, hyt]
  · intro hall x hx
    exact hall x (List.mem_cons_of_mem _ hx) t (List.mem_cons_self _ _)

theorem readMultipliersGo_spec (cons : List Constraint) (pairs : List (ℤ × ℚ))
    (h : ∀ p ∈ pairs, 0 ≤ p.1 ∧ p.1 < (cons.length : ℤ)) (s0 : Int)
    (m0 : List (ℤ × ℚ)) :
    (s0 ≠ 0 → (((readMultipliersGo cons s0 m0 pairs).isSome ↔
        ∀ x ∈ signedSenses cons pairs, x = s0) ∧
      ∀ s m, readMultipliersGo cons s0 m0 pairs = some (s, m) → s = s0))
    ∧ (s0 = 0 → (((readMultipliersGo cons s0 m0 pairs).isSome ↔
        ∀ x ∈ signedSenses cons pairs, ∀ y ∈ signedSenses cons pairs, x = y)
      ∧ ∀ s m, readMultipliersGo cons s0 m0 pairs = some (s, m) →
          s = (signedSenses cons pairs).headD 0)) := by
  induction pairs generalizing s0 m0 with
  | nil =>
    constructor
    · intro hs0
      refine ⟨by simp [readMultipliersGo, signedSenses], ?_⟩
      intro s m hsm
      simp only [readMultipliersGo, Option.some.injEq, Prod.mk.injEq] at hsm
      exact hsm.1.symm
    · intro hs0
      refine ⟨by simp [readMultipliersGo, signedSenses], ?_⟩
      intro s m hsm
      simp only [readMultipliersGo, Option.some.injEq, Prod.mk.injEq] at hsm
      have h1 := hsm.1
      simp only [signedSenses, List.headD_nil]
      omega
  | cons p rest ih =>
    obtain ⟨i, a⟩ := p
    have hip := h (i, a) (List.mem_cons_self _ _)
    have hrest : ∀ q ∈ rest, 0 ≤ q.1 ∧ q.1 < (cons.length : ℤ) :=
      fun q hq => h q (List.mem_cons_of_mem _ hq)
    have hi0 : ¬ i < 0 := by omega
    have hilen : ¬ (cons.length : ℤ) ≤ i := by omega
    by_cases ha : a = 0
    · have hgo : ∀ s1 m1, readMultipliersGo cons s1 m1 ((i, a) :: rest)
          = readMultipliersGo cons s1 m1 rest := by
        intro s1 m1
        simp [readMultipliersGo, hi0, ha]
      have hss : signedSenses cons ((i, a) :: rest) = signedSenses cons rest := by
        simp [signedSenses, ha]
      rw [hss]
      constructor
      · intro hs0
        rw [hgo]
        exact (ih hrest s0 m0).1 hs0
      · intro hs0
        rw [hgo]
        exact (ih hrest s0 m0).2 hs0
    · set t := senseAt cons i * qsgn a with ht
      by_cases hteq : t = 0
      · have hgo : ∀ s1 m1, readMultipliersGo cons s1 m1 ((i, a) :: rest)
            = if s1 = 0 then readMultipliersGo cons t (assocSet i a m1) rest
              else readMultipliersGo cons s1 (assocSet i a m1) rest := by
          intro s1 m1
          by_cases hs1 : s1 = 0 <;>
            simp [readMultipliersGo, hi0, ha, hilen, hs1, ← ht, hteq]
        have hss : signedSenses cons ((i, a) :: rest) = signedSenses cons rest := by
          simp only [signedSenses]
          rw [if_neg ha, if_pos (by rw [← ht]; exact hteq)]
        rw [hss]
        constructor
        · intro hs0
          rw [hgo, if_neg hs0]
          exact (ih hrest s0 (assocSet i a m0)).1 hs0
        · intro hs0
          rw [hgo, if_pos hs0, hteq]
          exact (ih hrest 0 (assocSet i a m0)).2 rfl
      · have hss : signedSenses cons ((i, a) :: rest)
            = t :: signedSenses cons rest := by
          simp only [signedSenses]
          rw [if_neg ha, if_neg (by rw [← ht]; exact hteq), ← ht]
        rw [hss]
        constructor
        · intro hs0
          by_cases hst : s0 = t
          · have hgo : readMultipliersGo cons s0 m0 ((i, a) :: rest)
                = readMultipliersGo cons s0 (assocSet i a m0) rest := by
              simp [readMultipliersGo, hi0, ha, hilen, hs0, ← ht, hst]
            rw [hgo]
            have hih := (ih hrest s0 (assocSet i a m0)).1 hs0
            refine ⟨hih.1.trans ?_, hih.2⟩
            constructor
            · intro hall x hx
              rcases List.mem_cons.mp hx with hx | hx
              · rw [hx, hst]
              · exact hall x hx
            · intro hall x hx
              exact hall x (List.mem_cons_of_mem _ hx)
          · have hgo : readMultipliersGo cons s0 m0 ((i, a) :: rest) = none := by
              simp only [readMultipliersGo, hi0, if_false, ha, if_neg,
                hilen]
              simp [hs0, ← ht, hteq, Ne.symm, hst]
            rw [hgo]
            refine ⟨?_, by intro s m hsm; simp at hsm⟩
            simp only [Option.isSome_none, Bool.false_eq_true, false_iff]
            intro hall
            exact hst ((hall t (List.mem_cons_self _ _)).symm)
        · intro hs0
          have hgo : readMultipliersGo cons s0 m0 ((i, a) :: rest)
              = readMultipliersGo cons t (assocSet i a m0) rest := by
            simp [readMultipliersGo, hi0, ha, hilen, hs0]
          rw [hgo]
          have hih := (ih hrest t (assocSet i a m0)).1 hteq
          refine ⟨hih.1.trans (allEq_cons_iff t _), ?_⟩
          intro s m hsm
          simp only [List.headD_cons]
          exact hih.2 s m hsm

/-- C2.  Multiplier sign rule of `readMultipliers` (used by `lin` and
`rnd` steps): with every cited index in range, the read succeeds exactly
when all the remaining signed senses `sign(a_l) * sense(con[i_l])` (terms
with a zero multiplier or an equality constraint discarded) agree, and on
success the implied sense is their common value — the head of the list,
or 0 when none remain. -/
theorem readMultipliers_sign_rule (cons : List Constraint)
    (pairs : List (ℤ × ℚ))
    (h : ∀ p ∈ pairs, 0 ≤ p.1 ∧ p.1 < (cons.length : ℤ)) :
    ((readMultipliers cons pairs).isSome ↔
      ∀ x ∈ signedSenses cons pairs, ∀ y ∈ signedSenses cons pairs, x = y)
    ∧ ∀ s m, readMultipliers cons pairs = some (s, m) →
        s = (signedSenses cons pairs).headD 0 :=
  (readMultipliersGo_spec cons pairs h 0 []).2 rfl

/-- C2 witness.  The sign rule applied to the concrete multiplier list
`-2 * (x ≤ 0)` and `3 * (x ≥ 0)`: both signed senses are `+1`, the read
succeeds, and the implied sense is `+1`. -/
theorem readMultipliers_sign_rule_witness :
    (1 : Int) = (signedSenses
      [{ sense := -1, rhs := 0, coef := [(0, 1)] },
       { sense := 1, rhs := 0, coef := [(0, 1)] }]
      [(0, -2), (1, 3)]).headD 0 :=
  (readMultipliers_sign_rule
      [{ sense := -1, rhs := 0, coef := [(0, 1)] },
       { sense := 1, rhs := 0, coef := [(0, 1)] }]
      [(0, -2), (1, 3)] (by norm_num)).2
    1 [(0, -2), (1, 3)]
    (by norm_num [readMultipliers, readMultipliersGo, assocSet, senseAt, qsgn])

/-- Coefficient field of a parsed constraint, as produced by
`readConstraintCoefficients` of viprchk.cpp: the literal `OBJ` token
makes the field an alias of the shared objective-coefficient object
(`coefficients = objectiveCoefficients`), anything else builds a fresh
explicit vector.  Pointer identity with the objective is therefore
exactly the `objRef` case. -/
inductive CoefField
  | objRef
  | explicitVec (v : SVec)
deriving DecidableEq

/-- Objective integrality flag computed in `processOBJ` of viprchk.cpp:
starts true and is cleared when some objective entry has a non-integer
value or sits on a non-integer variable. -/
def objectiveIntegral (isInt : ℕ → Bool) (obj : SVec) : Bool :=
  obj.all (fun p => isIntegerQ p.2 && isInt p.1)

/-- Running best objective value over the SOL solutions, as maintained by
`processSOL` of viprchk.cpp: later values replace the current best when
smaller (minimisation) or larger (maximisation). -/
def bestObjGo (isMin : Bool) : ℚ → List ℚ → ℚ
  | best, [] => best
  | best, v :: rest =>
    bestObjGo isMin
      (if isMin then (if v < best then v else best)
       else (if best < v then v else best)) rest

/-- Best objective value of a SOL section: the first value seeds the
running best (the global is default-initialised to 0 when the section is
empty). -/
def bestObj (isMin : Bool) : List ℚ → ℚ
  | [] => 0
  | v :: rest => bestObjGo isMin v rest

/-- The `sol` branch of `processDER` of viprchk.cpp: computes the cutoff
bound from the best primal value, minus one when the objective is
integral; then requires the coefficient field to be the shared objective
vector (the pointer comparison `coef != objectiveCoefficients`), the
sense to be `≤` (-1), the right-hand side to reach the cutoff, and the
closing brace; the derived constraint keeps an empty assumption scope. -/
def solDerStep (field : CoefField) (sense : Int) (rhs : ℚ) (best : ℚ)
    (objIntegral : Bool) (bracket : String) : Option (Finset ℤ) :=
  if ¬ field = CoefField.objRef then none
  else if ¬ sense = -1 then none
  else if rhs < (if objIntegral then best - 1 else best) then none
  else if ¬ bracket = "\x7d" then none
  else some ∅

theorem bestObjGo_spec (isMin : Bool) (l : List ℚ) (b : ℚ) :
    (bestObjGo isMin b l = b ∨ bestObjGo isMin b l ∈ l)
    ∧ (isMin = true → bestObjGo isMin b l ≤ b ∧ ∀ x ∈ l, bestObjGo isMin b l ≤ x)
    ∧ (isMin = false → b ≤ bestObjGo isMin b l ∧ ∀ x ∈ l, x ≤ bestObjGo isMin b l) := by
  induction l generalizing b with
  | nil => simp [bestObjGo]
  | cons v rest ih =>
    by_cases hm : isMin = true
    · by_cases hv : v < b
      · have hgo : bestObjGo isMin b (v :: rest) = bestObjGo isMin v rest := by
          simp [bestObjGo, hm, hv]
        obtain ⟨ih1, ih2, _⟩ := ih v
        have hle := (ih2 hm).1
        refine ⟨?_, fun _ => ⟨by rw [hgo]; linarith, ?_⟩, fun hf => by rw [hf] at hm; exact absurd hm (by simp)⟩
        · rw [hgo]
          rcases ih1 with h1 | h1
          · exact Or.inr (by simp [h1])
          · exact Or.inr (List.mem_cons_of_mem _ h1)
        · intro x hx
          rw [hgo]
          rcases List.mem_cons.mp hx with hx | hx
          · rw [hx]; exact hle
          · exact (ih2 hm).2 x hx
      · have hgo : bestObjGo isMin b (v :: rest) = bestObjGo isMin b rest := by
          simp [bestObjGo, hm, hv]
        obtain ⟨ih1, ih2, _⟩ := ih b
        have hle := (ih2 hm).1
        refine ⟨?_, fun _ => ⟨by rw [hgo]; linarith, ?_⟩, fun hf => by rw [hf] at hm; exact absurd hm (by simp)⟩
        · rw [hgo]
          rcases ih1 with h1 | h1
          · exact Or.inl h1
          · exact Or.inr (List.mem_cons_of_mem _ h1)
        · intro x hx
          rw [hgo]
          rcases List.mem_cons.mp hx with hx | hx
          · rw [hx]; linarith
          · exact (ih2 hm).2 x hx
    · have hm2 : isMin = false := by simpa using hm
      by_cases hv : b < v
      · have hgo : bestObjGo isMin b (v :: rest) = bestObjGo isMin v rest := by
          simp [bestObjGo, hm2, hv]
        obtain ⟨ih1, _, ih3⟩ := ih v
        have hle := (ih3 hm2).1
        refine ⟨?_, fun hf => by rw [hf] at hm2; exact absurd hm2 (by simp), fun _ => ⟨by rw [hgo]; linarith, ?_⟩⟩
        · rw [hgo]
          rcases ih1 with h1 | h1
          · exact Or.inr (by simp [h1])
          · exact Or.inr (List.mem_cons_of_mem _ h1)
        · intro x hx
          rw [hgo]
          rcases List.mem_cons.mp hx with hx | hx
          · rw [hx]; exact hle
          · exact (ih3 hm2).2 x hx
      · have hgo : bestObjGo isMin b (v :: rest) = bestObjGo isMin b rest := by
          simp [bestObjGo, hm2, hv]
        obtain ⟨ih1, _, ih3⟩ := ih b
        have hle := (ih3 hm2).1
        refine ⟨?_, fun hf => by rw [hf] at hm2; exact absurd hm2 (by simp), fun _ => ⟨by rw [hgo]; linarith, ?_⟩⟩
        · rw [hgo]
          rcases ih1 with h1 | h1
          · exact Or.inl h1
          · exact Or.inr (List.mem_cons_of_mem _ h1)
        · intro x hx
          rw [hgo]
          rcases List.mem_cons.mp hx with hx | hx
          · rw [hx]; linarith
          · exact (ih3 hm2).2 x hx

theorem objectiveIntegral_iff (isInt : ℕ → Bool) (obj : SVec) :
    objectiveIntegral isInt obj = true ↔
      ∀ p ∈ obj, isIntegerQ p.2 = true ∧ isInt p.1 = true := by
  simp [objectiveIntegral, List.all_eq_true, Bool.and_eq_true]

/-- C3.  A `sol` derivation step is accepted iff its coefficient field is
the literal `OBJ` token (identity with the shared objective vector), its
sense is `≤` and its right-hand side is at least
`best - (1 if the objective is integral else 0)`, where `best` is the
best objective value over the (nonempty) SOL solutions — an element of
the value list that bounds it from below (minimisation) or above
(maximisation) — and objective integrality means every objective entry
has an integer value on an integer variable; an accepted step records an
empty assumption scope. -/
theorem solDerStep_accepts (isInt : ℕ → Bool) (obj : SVec) (isMin : Bool)
    (field : CoefField) (sense : Int) (rhs : ℚ) (v : ℚ) (vs : List ℚ)
    (bracket : String) (hbr : bracket = "\x7d") :
    ((solDerStep field sense rhs (bestObj isMin (v :: vs))
        (objectiveIntegral isInt obj) bracket).isSome ↔
      (field = CoefField.objRef ∧ sense = -1 ∧
        bestObj isMin (v :: vs) -
          (if ∀ p ∈ obj, isIntegerQ p.2 = true ∧ isInt p.1 = true
           then 1 else 0) ≤ rhs))
    ∧ (∀ s, solDerStep field sense rhs (bestObj isMin (v :: vs))
        (objectiveIntegral isInt obj) bracket = some s → s = ∅)
    ∧ (bestObj isMin (v :: vs) ∈ v :: vs ∧
        ∀ x ∈ v :: vs,
          (isMin = true → bestObj isMin (v :: vs) ≤ x) ∧
          (isMin = false → x ≤ bestObj isMin (v :: vs))) := by
  have hcut : (if objectiveIntegral isInt obj then bestObj isMin (v :: vs) - 1
        else bestObj isMin (v :: vs))
      = bestObj isMin (v :: vs) -
          (if ∀ p ∈ obj, isIntegerQ p.2 = true ∧ isInt p.1 = true
           then 1 else 0) := by
    by_cases hP : ∀ p ∈ obj, isIntegerQ p.2 = true ∧ isInt p.1 = true
    · rw [if_pos ((objectiveIntegral_iff isInt obj).mpr hP), if_pos hP]
    · rw [if_neg (fun hb => hP ((objectiveIntegral_iff isInt obj).mp hb)),
        if_neg hP]
      ring
  obtain ⟨hb1, hb2, hb3⟩ := bestObjGo_spec isMin vs v
  refine ⟨?_, ?_, ?_⟩
  · unfold solDerStep
    rw [hcut, hbr]
    split_ifs with h1 h2 h3 <;> (simp_all; try linarith)
  · intro s hs
    unfold solDerStep at hs
    split_ifs at hs <;> exact (Option.some.inj hs).symm
  · constructor
    · rcases hb1 with h1 | h1
      · simp [bestObj, h1]
      · exact List.mem_cons_of_mem _ (by simpa [bestObj] using h1)
    · intro x hx
      constructor
      · intro hm
        rcases List.mem_cons.mp hx with hx | hx
        · simpa [bestObj, hx] using (hb2 hm).1
        · simpa [bestObj] using (hb2 hm).2 x hx
      · intro hm
        rcases List.mem_cons.mp hx with hx | hx
        · simpa [bestObj, hx] using (hb3 hm).1
        · simpa [bestObj] using (hb3 hm).2 x hx

/-- C3 witness.  The `sol` acceptance theorem applied at a concrete step:
minimisation with one integer variable, integral objective `x`, best
primal value 7, claimed constraint `obj ≤ 6` with the `OBJ` token: the
step is accepted since `6 ≥ 7 - 1`. -/
theorem solDerStep_accepts_witness :
    (solDerStep CoefField.objRef (-1) 6 (bestObj true [7])
      (objectiveIntegral (fun _ => true) [(0, 1)]) "\x7d").isSome = true :=
  (solDerStep_accepts (fun _ => true) [(0, 1)] true CoefField.objRef (-1) 6 7 []
      "\x7d" rfl).1.mpr
    ⟨rfl, rfl, by norm_num [bestObj, bestObjGo, isIntegerQ]⟩

/-- Fetch of `constraint[i]` by a C++ `int` index: `none` marks an access
outside the vector, which is undefined behaviour in the source. -/
def conAt (cons : List Constraint) (i : ℤ) : Option Constraint :=
  if i < 0 then none else cons.get? i.toNat

/-- Index validation of the `uns` branch of `processDER` of viprchk.cpp
followed by the fetches performed for `canUnsplit`: only `con1` and
`con2` are compared against the valid range `[0, newConIdx)`; the
assumption indices `a1` and `a2` are fetched with no range check at
all. -/
def unsLookups (cons : List Constraint) (con1 a1 con2 a2 : ℤ) :
    Option (Option Constraint × Option Constraint ×
      Option Constraint × Option Constraint) :=
  if con1 < 0 ∨ (cons.length : ℤ) ≤ con1 then none
  else if con2 < 0 ∨ (cons.length : ℤ) ≤ con2 then none
  else some (conAt cons con1, conAt cons a1, conAt cons con2, conAt cons a2)

/-- Example constraint used for concrete evaluations. -/
def exCon : Constraint := { sense := -1, rhs := 0, coef := [(0, 1)] }

/-- C5.  With three constraints in scope, a `uns` step citing the
assumption indices `a1 = 100` and `a2 = -1` passes the only index checks
performed (those on `con1` and `con2`), and the subsequent fetches of the
two assumption constraints fall outside the constraint vector (`none`,
undefined behaviour in the C++): no semantic error is reported for the
out-of-range `a1`, `a2`, contrary to the claim. -/
theorem uns_assumption_indices_unchecked :
    unsLookups [exCon, exCon, exCon] 0 100 1 (-1)
      = some (some exCon, none, some exCon, none) := by
  rfl

/-- Solution feasibility test of `processSOL` of viprchk.cpp (the
`satisfies` lambda): scalar product of the constraint row with the
solution, compared against the sense and right-hand side. -/
def satisfies (con : Constraint) (x : SVec) : Prop :=
  if con.sense < 0 then scalarProduct con.coef x ≤ con.rhs
  else if 0 < con.sense then con.rhs ≤ scalarProduct con.coef x
  else con.rhs = scalarProduct con.coef x

instance (con : Constraint) (x : SVec) : Decidable (satisfies con x) := by
  unfold satisfies; infer_instance

/-- Integrality check of a SOL solution: every value assigned to an
integer variable is an integer. -/
def solutionIntegral (isInt : ℕ → Bool) (x : SVec) : Prop :=
  ∀ p ∈ x, isInt p.1 = true → isIntegerQ p.2 = true

instance (isInt : ℕ → Bool) (x : SVec) : Decidable (solutionIntegral isInt x) := by
  unfold solutionIntegral; infer_instance

/-- Per-solution loop of `processSOL` of viprchk.cpp: each solution is
checked for integrality and against every base constraint, the section
aborting on the first violation, while the best objective value is
maintained. -/
def processSOLGo (cons : List Constraint) (isInt : ℕ → Bool) (obj : SVec)
    (isMin : Bool) : ℚ → Bool → List SVec → Option ℚ
  | best, _, [] => some best
  | best, first, x :: rest =>
    if ¬ solutionIntegral isInt x then none
    else if ¬ ∀ con ∈ cons, satisfies con x then none
    else
      processSOLGo cons isInt obj isMin
        (if first then scalarProduct obj x
         else if isMin then
           (if scalarProduct obj x < best then scalarProduct obj x else best)
         else (if best < scalarProduct obj x then scalarProduct obj x else best))
        false rest

/-- RTP configuration recorded by `processRTP` of viprchk.cpp. -/
structure RTPCfg where
  isRange : Bool
  checkLower : Bool
  checkUpper : Bool
  lowerBound : ℚ
  upperBound : ℚ

/-- The SOL section of viprchk.cpp (`processSOL`): every listed solution
is checked; afterwards the best objective value is compared against the
primal-side RTP bound, and an empty solution list is an error when a
primal bound is required. -/
def processSOL (cons : List Constraint) (isInt : ℕ → Bool) (obj : SVec)
    (isMin : Bool) (cfg : RTPCfg) (sols : List SVec) : Option ℚ :=
  match processSOLGo cons isInt obj isMin 0 true sols with
  | none => none
  | some best =>
    if ¬ sols = [] then
      if isMin = true ∧ cfg.checkUpper = true ∧ cfg.upperBound < best then none
      else if isMin = false ∧ cfg.checkLower = true ∧ best < cfg.lowerBound
        then none
      else some best
    else if cfg.isRange = true ∧
        ((isMin = true ∧ cfg.checkUpper = true) ∨
         (isMin = false ∧ cfg.checkLower = true)) then none
    else some best

/-- Continuation of the verifier after SOL: the DER section runs only
when the SOL section succeeded (the `if`-chain of `main`). -/
def afterSOL (r : Option ℚ) (derCheck : ℚ → Bool) : Bool :=
  match r with
  | none => false
  | some best => derCheck best

theorem processSOLGo_spec (cons : List Constraint) (isInt : ℕ → Bool)
    (obj : SVec) (isMin : Bool) (sols : List SVec) (b0 : ℚ) (f0 : Bool) :
    (∀ best, processSOLGo cons isInt obj isMin b0 f0 sols = some best →
      ∀ x ∈ sols, solutionIntegral isInt x ∧ ∀ con ∈ cons, satisfies con x)
    ∧ ∀ x ∈ sols, ¬ (solutionIntegral isInt x ∧ ∀ con ∈ cons, satisfies con x) →
        processSOLGo cons isInt obj isMin b0 f0 sols = none := by
  induction sols generalizing b0 f0 with
  | nil =>
    refine ⟨fun best hb x hx => absurd hx (by simp), fun x hx => absurd hx (by simp)⟩
  | cons y rest ih =>
    by_cases hint : solutionIntegral isInt y
    · by_cases hsat : ∀ con ∈ cons, satisfies con y
      · have hgo : ∀ b f, processSOLGo cons isInt obj isMin b f (y :: rest)
            = processSOLGo cons isInt obj isMin
                (if f then scalarProduct obj y
                 else if isMin then
                   (if scalarProduct obj y < b then scalarProduct obj y else b)
                 else (if b < scalarProduct obj y then scalarProduct obj y else b))
                false rest := by
          intro b f
          simp only [processSOLGo]
          rw [if_neg (not_not.mpr hint), if_neg (not_not.mpr hsat)]
        constructor
        · intro best hb x hx
          rcases List.mem_cons.mp hx with hx | hx
          · exact hx ▸ ⟨hint, hsat⟩
          · rw [hgo] at hb
            exact (ih _ false).1 best hb x hx
        · intro x hx hbad
          rcases List.mem_cons.mp hx with hx | hx
          · exact absurd (hx ▸ ⟨hint, hsat⟩) hbad
          · rw [hgo]
            exact (ih _ false).2 x hx hbad
      · have hgo : processSOLGo cons isInt obj isMin b0 f0 (y :: rest) = none := by
          simp only [processSOLGo]
          rw [if_neg (not_not.mpr hint), if_pos hsat]
        refine ⟨fun best hb => absurd (hgo ▸ hb) (by simp), fun x hx hbad => hgo⟩
    · have hgo : processSOLGo cons isInt obj isMin b0 f0 (y :: rest) = none := by
        simp only [processSOLGo]
        rw [if_pos hint]
      refine ⟨fun best hb => absurd (hgo ▸ hb) (by simp), fun x hx hbad => hgo⟩

/-- C9.  Every solution listed in the SOL section is checked: whenever
the section succeeds, each solution assigns integer values to integer
variables and satisfies every base constraint; and whenever some listed
solution violates one of these checks, the section fails and the whole
run fails without the DER section ever being examined (the continuation
is never invoked). -/
theorem processSOL_checks_all (cons : List Constraint) (isInt : ℕ → Bool)
    (obj : SVec) (isMin : Bool) (cfg : RTPCfg) (sols : List SVec) :
    (∀ best, processSOL cons isInt obj isMin cfg sols = some best →
      ∀ x ∈ sols, solutionIntegral isInt x ∧ ∀ con ∈ cons, satisfies con x)
    ∧ ∀ x ∈ sols, ¬ (solutionIntegral isInt x ∧ ∀ con ∈ cons, satisfies con x) →
        processSOL cons isInt obj isMin cfg sols = none ∧
        ∀ derCheck : ℚ → Bool,
          afterSOL (processSOL cons isInt obj isMin cfg sols) derCheck = false := by
  obtain ⟨hgo1, hgo2⟩ := processSOLGo_spec cons isInt obj isMin sols 0 true
  constructor
  · intro best hb x hx
    unfold processSOL at hb
    rcases hgoeq : processSOLGo cons isInt obj isMin 0 true sols with _ | b2
    · rw [hgoeq] at hb
      simp at hb
    · exact hgo1 b2 hgoeq x hx
  · intro x hx hbad
    have hnone : processSOL cons isInt obj isMin cfg sols = none := by
      unfold processSOL
      rw [hgo2 x hx hbad]
    exact ⟨hnone, fun derCheck => by rw [hnone]; rfl⟩

/-- C9 witness.  The SOL theorem applied at a concrete violating
solution: base constraint `x ≥ 1`, solution `x = 0`: the section fails
and the continuation never runs. -/
theorem processSOL_checks_all_witness :
    processSOL [{ sense := 1, rhs := 1, coef := [(0, 1)] }] (fun _ => true)
      [(0, 1)] true ⟨true, true, false, 0, 0⟩ [[(0, 0)]] = none :=
  ((processSOL_checks_all [{ sense := 1, rhs := 1, coef := [(0, 1)] }]
      (fun _ => true) [(0, 1)] true ⟨true, true, false, 0, 0⟩ [[(0, 0)]]).2
    [(0, 0)] (by simp)
    (by
      intro hok
      have hs := hok.2 { sense := 1, rhs := 1, coef := [(0, 1)] } (by simp)
      norm_num [satisfies, scalarProduct, svLookup] at hs)).1

/-- Parsed RTP section content: `infeas`, `range` with optional finite
bounds (`-inf` / `inf` parse to nothing to check), or an unrecognized
keyword. -/
inductive RTPInput
  | infeasTok
  | rangeTok (lower upper : Option ℚ)
  | otherTok (s : String)

/-- The RTP section of viprchk.cpp (`processRTP`): `infeas` is recorded
directly; `range` reads the two bounds and rejects a finite lower bound
strictly above a finite upper bound; any other keyword is an error. -/
def processRTP (inp : RTPInput) : Option RTPCfg :=
  match inp with
  | RTPInput.infeasTok => some ⟨false, false, false, 0, 0⟩
  | RTPInput.otherTok _ => none
  | RTPInput.rangeTok lo hi =>
    if lo.isSome = true ∧ hi.isSome = true ∧ hi.getD 0 < lo.getD 0 then none
    else some ⟨true, lo.isSome, hi.isSome, lo.getD 0, hi.getD 0⟩

/-- Continuation of the verifier after RTP: the SOL section, then the DER
section through `afterSOL` (the `if`-chain of `main`). -/
def afterRTP (cons : List Constraint) (isInt : ℕ → Bool) (obj : SVec)
    (isMin : Bool) (r : Option RTPCfg) (sols : List SVec)
    (derCheck : RTPCfg → ℚ → Bool) : Bool :=
  match r with
  | none => false
  | some cfg => afterSOL (processSOL cons isInt obj isMin cfg sols) (derCheck cfg)

/-- C10.  An RTP section of kind `range` whose two bounds are finite with
the lower strictly greater than the upper is rejected during RTP
processing, and the whole run fails with neither the SOL section nor the
DER section examined (the continuation is never invoked). -/
theorem processRTP_rejects_empty_range (lb ub : ℚ) (h : ub < lb) :
    processRTP (RTPInput.rangeTok (some lb) (some ub)) = none
    ∧ ∀ cons isInt obj isMin sols derCheck,
        afterRTP cons isInt obj isMin
          (processRTP (RTPInput.rangeTok (some lb) (some ub))) sols derCheck
          = false := by
  have hnone : processRTP (RTPInput.rangeTok (some lb) (some ub)) = none := by
    simp only [processRTP]
    rw [if_pos ⟨rfl, rfl, h⟩]
  exact ⟨hnone, fun cons isInt obj isMin sols derCheck => by rw [hnone]; rfl⟩

/-- C10 witness.  The RTP rejection theorem applied at the concrete
bounds `range 1 0`. -/
theorem processRTP_rejects_empty_range_witness :
    processRTP (RTPInput.rangeTok (some 1) (some 0)) = none :=
  (processRTP_rejects_empty_range 1 0 (by norm_num)).1

/-- C6 witness.  The dominance-monotonicity theorem applied at the
concrete constraints `x ≤ 1`, `x ≤ 2`, `x ≤ 3` (equal coefficient
vectors). -/
theorem dominates_trans_witness :
    dominates { sense := -1, rhs := 1, coef := [(0, 1)] }
      { sense := -1, rhs := 3, coef := [(0, 1)] } :=
  dominates_trans
    { sense := -1, rhs := 1, coef := [(0, 1)] }
    { sense := -1, rhs := 2, coef := [(0, 1)] }
    { sense := -1, rhs := 3, coef := [(0, 1)] }
    (by decide) (by decide) rfl

end Vipr

namespace Incompletify

/-- Parsed reason of a DER line of incompletify.cpp, dispatching on the
keyword read after the opening brace, with the payload the incompletifier
reads for it. -/
inductive DerReason
  | asmR
  | linR (mults : List (ℤ × ℚ))
  | rndR (mults : List (ℤ × ℚ))
  | unsR (c1 a1 c2 a2 : ℤ)
  | solR
deriving DecidableEq

/-- Keyword of a reason as it appears in the certificate. -/
def keyword : DerReason → String
  | DerReason.asmR => "asm"
  | DerReason.linR _ => "lin"
  | DerReason.rndR _ => "rnd"
  | DerReason.unsR _ _ _ _ => "uns"
  | DerReason.solR => "sol"

/-- Output payload of one derivation step of the incompletifier. -/
inductive StepOut
  | unchanged (r : DerReason)
  | linIncomplete (idxs : List ℤ)
  | linWeak (mults : List (ℤ × ℚ))
deriving DecidableEq

/-- One derivation step of `processDER` of incompletify.cpp: the reason
keyword is dispatched; `asm`, `rnd` and `uns` steps are echoed verbatim;
a `lin` step whose random draw selects it (`makeincomplete`), unless
excluded as an objective row in `noobj` mode, is rewritten to
`incomplete` followed by the cited derived indices (those at least
`numberOfConstraints`) or to `weak { 0 }` with its multipliers kept; any
other keyword reaches the final `Unknown reason` branch: nothing is
echoed and the step is marked failed. -/
def processDERStep (numberOfConstraints : ℤ)
    (incomplete incompleteObj makeincomplete coefIsObj : Bool)
    (r : DerReason) : Option StepOut :=
  if keyword r = "asm" then some (StepOut.unchanged r)
  else if keyword r = "lin" then
    match r with
    | DerReason.linR mults =>
      if makeincomplete = true ∧ (¬ coefIsObj = true ∨ incompleteObj = true) then
        if incomplete then
          some (StepOut.linIncomplete
            ((mults.map Prod.fst).filter (fun i => numberOfConstraints ≤ i)))
        else some (StepOut.linWeak mults)
      else some (StepOut.unchanged r)
    | _ => none
  else if keyword r = "rnd" then some (StepOut.unchanged r)
  else if keyword r = "uns" then some (StepOut.unchanged r)
  else none

/-- C8.  The incompletifier echoes `asm`, `rnd` and `uns` steps
unchanged, but a `sol` step matches no branch of the keyword dispatch: it
reaches the `Unknown reason.  Nothing to complete.` error, nothing is
written for it and the step fails, so a well-formed certificate
containing a `sol` step is not processed successfully, contrary to the
claim. -/
theorem sol_step_dropped :
    processDERStep 0 true true true false DerReason.solR = none
    ∧ processDERStep 0 true true true false DerReason.asmR
        = some (StepOut.unchanged DerReason.asmR)
    ∧ processDERStep 0 true true true false (DerReason.rndR [(0, 1)])
        = some (StepOut.unchanged (DerReason.rndR [(0, 1)]))
    ∧ processDERStep 0 true true true false (DerReason.unsR 0 1 2 3)
        = some (StepOut.unchanged (DerReason.unsR 0 1 2 3)) :=
  ⟨rfl, rfl, rfl, rfl⟩

end Incompletify

namespace Viprcomp

/-- The constraint record of viprcomp_parallel.cpp (`struct Constraint`):
a coefficient row, a side and a sense.  The table of constraints is a
total function from certificate index (callers only ever use valid
indices; an invalid index is undefined behaviour in the source). -/
structure ConS where
  vec : Vipr.SVec := []
  side : ℚ := 0
  sense : Int := 0

/-- Sorted add-or-insert on an association list with ℕ keys: the
behaviour of `coefficients[idx] += v` on a `std::map`. -/
def assocAddNat (i : ℕ) (v : ℚ) : List (ℕ × ℚ) → List (ℕ × ℚ)
  | [] => [(i, v)]
  | p :: t =>
    if i < p.1 then (i, v) :: p :: t
    else if i = p.1 then (i, p.2 + v) :: t
    else p :: assocAddNat i v t

/-- Sorted add-or-insert on an association list with ℤ keys: the
behaviour of `multDer[boundindex] += v`. -/
def assocAddInt (i : ℤ) (v : ℚ) : List (ℤ × ℚ) → List (ℤ × ℚ)
  | [] => [(i, v)]
  | p :: t =>
    if i < p.1 then (i, v) :: p :: t
    else if i = p.1 then (i, p.2 + v) :: t
    else p :: assocAddInt i v t

/-- Multiplier reader of viprcomp_parallel.cpp (the file-static
`readMultipliers`): unlike the verifier's reader, the implied sense is
NOT reset on entry — it starts from the caller's value, which in
`completeWeakDomination` is the claimed constraint's sense — and there is
no index validation at all. -/
def readMultipliersGo (cons : ℤ → ConS) :
    Int → List (ℤ × ℚ) → List (ℤ × ℚ) → Option (Int × List (ℤ × ℚ))
  | sense, mult, [] => some (sense, mult)
  | sense, mult, (i, a) :: rest =>
    if a = 0 then readMultipliersGo cons sense mult rest
    else
      let t := (cons i).sense * Vipr.qsgn a
      if sense = 0 then readMultipliersGo cons t (Vipr.assocSet i a mult) rest
      else if t ≠ 0 ∧ sense ≠ t then none
      else readMultipliersGo cons sense (Vipr.assocSet i a mult) rest

/-- Linear combination of the cited constraints (the file-static
`readLinComb` of viprcomp_parallel.cpp): reads the multipliers seeded
with the claimed sense, then sums the scaled rows and sides over the
multiplier map (iteration in key order; the two sums are kept as separate
folds, which agree with the interleaved source loop since addition
commutes).  Returns the effective sense, the derived side, the derived
coefficient map and the multiplier map. -/
def readLinCombC (cons : ℤ → ConS) (sense0 : Int) (pairs : List (ℤ × ℚ)) :
    Option (Int × ℚ × List (ℕ × ℚ) × List (ℤ × ℚ)) :=
  match readMultipliersGo cons sense0 [] pairs with
  | none => none
  | some (sense, mult) =>
    some (sense,
      mult.foldl (fun r q => r + q.2 * (cons q.1).side) 0,
      mult.foldl (fun acc q =>
        (cons q.1).vec.foldl (fun acc2 p => assocAddNat p.1 (q.2 * p.2) acc2) acc)
        [],
      mult)

/-- A recorded variable bound: value, original factor and certificate
index (the tuples stored in `lowerBounds` / `upperBounds` and in the
local-bound maps of `completeWeakDomination`). -/
structure BoundInfo where
  val : ℚ
  factor : ℚ
  index : ℤ

/-- Lookup in a local-bound map (`localLowerBoundsToUse.find`). -/
def assocFind (i : ℕ) : List (ℕ × (ℤ × ℚ)) → Option (ℤ × ℚ)
  | [] => none
  | p :: t => if p.1 = i then some p.2 else assocFind i t

/-- Bound selection of `completeWeakDomination`: a local bound from the
`weak { ... }` annotation takes precedence (with factor 1), otherwise the
global bound recorded during the CON scan, with its stored factor. -/
def pickBound (islower : Bool) (idx : ℕ)
    (lowerLoc upperLoc : List (ℕ × (ℤ × ℚ)))
    (lowerB upperB : ℕ → BoundInfo) : BoundInfo :=
  if islower then
    match assocFind idx lowerLoc with
    | some bi => ⟨bi.2, 1, bi.1⟩
    | none => lowerB idx
  else
    match assocFind idx upperLoc with
    | some bi => ⟨bi.2, 1, bi.1⟩
    | none => upperB idx

/-- State threaded through the two correction loops: the corrected side
and the multiplier map being extended. -/
structure WeakState where
  corrected : ℚ
  mult : List (ℤ × ℚ)

/-- One coefficient correction (the shared body of the two loops of
`completeWeakDomination`): for the gap `g = valToDerive - derivedVal`,
the side is chosen from the effective sense (`lower` iff the sense is `≤`
and the gap nonpositive, or the sense is `≥` and the gap nonnegative),
the bound is looked up, `g / factor` is added to the multiplier at the
bound's certificate index, and `g * boundval` to the corrected side. -/
def correctionStep (lowerLoc upperLoc : List (ℕ × (ℤ × ℚ)))
    (lowerB upperB : ℕ → BoundInfo) (consense : Int) (idx : ℕ) (g : ℚ)
    (st : WeakState) : WeakState :=
  let islower := if consense = -1 then decide (g ≤ 0) else decide (0 ≤ g)
  let b := pickBound islower idx lowerLoc upperLoc lowerB upperB
  ⟨st.corrected + g * b.val, assocAddInt b.index (g / b.factor) st.mult⟩

/-- First correction loop of `completeWeakDomination`: iterates over the
entries of the derived coefficient map, overwrites each entry with the
claimed value, and corrects every gap with a variable bound; a gap when
the effective sense is an equality (neither -1 nor 1) is an error. -/
def loop1 (row : Vipr.SVec) (lowerLoc upperLoc : List (ℕ × (ℤ × ℚ)))
    (lowerB upperB : ℕ → BoundInfo) (consense : Int) :
    List (ℕ × ℚ) → WeakState → Option (List (ℕ × ℚ) × WeakState)
  | [], st => some ([], st)
  | (idx, dv) :: rest, st =>
    if dv = Vipr.svLookup row idx then
      match loop1 row lowerLoc upperLoc lowerB upperB consense rest st with
      | none => none
      | some r => some ((idx, Vipr.svLookup row idx) :: r.1, r.2)
    else if consense = -1 ∨ consense = 1 then
      match loop1 row lowerLoc upperLoc lowerB upperB consense rest
          (correctionStep lowerLoc upperLoc lowerB upperB consense idx
            (Vipr.svLookup row idx - dv) st) with
      | none => none
      | some r => some ((idx, Vipr.svLookup row idx) :: r.1, r.2)
    else none

/-- Lookup with default-insertion: the behaviour of `coefDer[idx]` via
`std::map::operator[]` in the second loop — returns the stored value,
inserting a 0 entry when the key is absent (the list is kept sorted). -/
def assocGetInsert (i : ℕ) : List (ℕ × ℚ) → ℚ × List (ℕ × ℚ)
  | [] => (0, [(i, 0)])
  | p :: t =>
    if i < p.1 then (0, (i, 0) :: p :: t)
    else if i = p.1 then (p.2, p :: t)
    else
      let r := assocGetInsert i t
      (r.1, p :: r.2)

/-- Second correction loop of `completeWeakDomination` ("now go the other
way"): iterates over the claimed row's entries; an index absent from the
derived map reads as 0 (and is inserted); every remaining gap is
corrected the same way, again failing on a gap under an equality
effective sense. -/
def loop2 (row : Vipr.SVec) (lowerLoc upperLoc : List (ℕ × (ℤ × ℚ)))
    (lowerB upperB : ℕ → BoundInfo) (consense : Int) :
    List (ℕ × ℚ) → List (ℕ × ℚ) → WeakState →
      Option (List (ℕ × ℚ) × WeakState)
  | [], coefDer, st => some (coefDer, st)
  | (idx, _) :: rest, coefDer, st =>
    let r := assocGetInsert idx coefDer
    if r.1 = Vipr.svLookup row idx then
      loop2 row lowerLoc upperLoc lowerB upperB consense rest r.2 st
    else if consense = -1 ∨ consense = 1 then
      loop2 row lowerLoc upperLoc lowerB upperB consense rest r.2
        (correctionStep lowerLoc upperLoc lowerB upperB consense idx
          (Vipr.svLookup row idx - r.1) st)
    else none

/-- Weak completion of a `lin` derivation (`completeWeakDomination` of
viprcomp_parallel.cpp).  `row` is the claimed coefficient row, `consense0`
the claimed sense and `rhs` the claimed right-hand side; the local bound
maps come from the `weak { ... }` annotation, the global bounds from the
CON scan, and `pairs` are the multipliers from the stream.  Returns the
success flag of the source: false on a multiplier sign conflict, on a
coefficient gap under an equality effective sense, and on a corrected
side beyond the claimed one unless the claimed row is empty with the
correct infeasibility sign. -/
def completeWeakDomination (cons : ℤ → ConS)
    (lowerLoc upperLoc : List (ℕ × (ℤ × ℚ))) (lowerB upperB : ℕ → BoundInfo)
    (row : Vipr.SVec) (consense0 : Int) (rhs : ℚ)
    (pairs : List (ℤ × ℚ)) : Bool :=
  match readLinCombC cons consense0 pairs with
  | none => false
  | some (consense, rhsDer, coefDer, multDer) =>
    match loop1 row lowerLoc upperLoc lowerB upperB consense coefDer
        ⟨rhsDer, multDer⟩ with
    | none => false
    | some r1 =>
      match loop2 row lowerLoc upperLoc lowerB upperB consense row r1.1
          r1.2 with
      | none => false
      | some r2 =>
        if (consense = -1 ∧ rhs < r2.2.corrected) ∨
            (consense = 1 ∧ r2.2.corrected < rhs) then
          if row = [] then
            decide ((consense = -1 ∧ r2.2.corrected < 0) ∨
              (consense = 1 ∧ 0 < r2.2.corrected))
          else false
        else true

/-- The corrected right-hand side (`correctedSide` of the source)
computed by the two correction loops, available when they succeed. -/
def weakCorrected (cons : ℤ → ConS)
    (lowerLoc upperLoc : List (ℕ × (ℤ × ℚ))) (lowerB upperB : ℕ → BoundInfo)
    (row : Vipr.SVec) (consense0 : Int) (pairs : List (ℤ × ℚ)) : Option ℚ :=
  match readLinCombC cons consense0 pairs with
  | none => none
  | some (consense, rhsDer, coefDer, multDer) =>
    match loop1 row lowerLoc upperLoc lowerB upperB consense coefDer
        ⟨rhsDer, multDer⟩ with
    | none => none
    | some r1 =>
      match loop2 row lowerLoc upperLoc lowerB upperB consense row r1.1
          r1.2 with
      | none => none
      | some r2 => some r2.2.corrected

/-- Success condition of weak completion exactly as the claim words it
(from spec §4.6): the claimed sense is `≤` and the corrected side is at
most the claimed right-hand side, or the claimed sense is `≥` and the
corrected side is at least the claimed one, or the claimed coefficient
vector is empty and the corrected side has the correct infeasibility
sign. -/
def weakClaimCondition (senseC : Int) (rowEmpty : Bool) (corrected rhs : ℚ) :
    Prop :=
  (senseC = -1 ∧ corrected ≤ rhs) ∨ (senseC = 1 ∧ rhs ≤ corrected) ∨
    (rowEmpty = true ∧
      ((senseC = -1 ∧ corrected < 0) ∨ (senseC = 1 ∧ 0 < corrected)))

instance (senseC : Int) (rowEmpty : Bool) (corrected rhs : ℚ) :
    Decidable (weakClaimCondition senseC rowEmpty corrected rhs) := by
  unfold weakClaimCondition; infer_instance

/-- Strictly ascending keys: the invariant of every association list that
models a `std::map`. -/
def KeySorted (l : List (ℕ × ℚ)) : Prop :=
  l.Pairwise (fun p q => p.1 < q.1)

theorem svLookup_cons (p : ℕ × ℚ) (t : List (ℕ × ℚ)) (i : ℕ) :
    Vipr.svLookup (p :: t) i = if p.1 = i then p.2 else Vipr.svLookup t i :=
  rfl

theorem svLookup_zero (l : List (ℕ × ℚ)) (i : ℕ)
    (h : ∀ q ∈ l, q.1 ≠ i) : Vipr.svLookup l i = 0 := by
  induction l with
  | nil => rfl
  | cons q t ih =>
    rw [svLookup_cons, if_neg (h q (List.mem_cons_self _ _))]
    exact ih (fun r hr => h r (List.mem_cons_of_mem _ hr))

theorem svLookup_entry (l : List (ℕ × ℚ)) (hs : KeySorted l) (p : ℕ × ℚ)
    (hp : p ∈ l) : Vipr.svLookup l p.1 = p.2 := by
  induction l with
  | nil => simp at hp
  | cons q t ih =>
    rcases List.pairwise_cons.mp hs with ⟨hq, ht⟩
    rcases List.mem_cons.mp hp with hp | hp
    · rw [hp, svLookup_cons, if_pos rfl]
    · rw [svLookup_cons, if_neg (Nat.ne_of_lt (hq p hp))]
      exact ih ht hp

theorem qsgn_mem (a : ℚ) :
    Vipr.qsgn a = -1 ∨ Vipr.qsgn a = 0 ∨ Vipr.qsgn a = 1 := by
  unfold Vipr.qsgn
  split_ifs <;> norm_num

theorem sense_mul_qsgn_mem (s : Int) (hs : s = -1 ∨ s = 0 ∨ s = 1) (a : ℚ) :
    s * Vipr.qsgn a = -1 ∨ s * Vipr.qsgn a = 0 ∨ s * Vipr.qsgn a = 1 := by
  rcases hs with h | h | h <;> rcases qsgn_mem a with h2 | h2 | h2 <;>
    rw [h, h2] <;> norm_num

theorem readMultipliersGo_sense_mem (cons : ℤ → ConS)
    (hsen : ∀ i : ℤ, (cons i).sense = -1 ∨ (cons i).sense = 0 ∨ (cons i).sense = 1)
    (pairs : List (ℤ × ℚ)) : ∀ s0, (s0 = -1 ∨ s0 = 0 ∨ s0 = 1) →
    ∀ m0 s m, readMultipliersGo cons s0 m0 pairs = some (s, m) →
      s = -1 ∨ s = 0 ∨ s = 1 := by
  induction pairs with
  | nil =>
    intro s0 hs0 m0 s m h
    simp only [readMultipliersGo, Option.some.injEq, Prod.mk.injEq] at h
    rcases h with ⟨h1, _⟩
    omega
  | cons p rest ih =>
    obtain ⟨i, a⟩ := p
    intro s0 hs0 m0 s m h
    simp only [readMultipliersGo] at h
    by_cases ha : a = 0
    · rw [if_pos ha] at h
      exact ih s0 hs0 m0 s m h
    · rw [if_neg ha] at h
      by_cases hs0z : s0 = 0
      · rw [if_pos hs0z] at h
        exact ih _ (sense_mul_qsgn_mem _ (hsen i) a) _ s m h
      · rw [if_neg hs0z] at h
        split_ifs at h with hc
        exact ih s0 hs0 _ s m h

theorem readLinCombC_sense_mem (cons : ℤ → ConS)
    (hsen : ∀ i : ℤ, (cons i).sense = -1 ∨ (cons i).sense = 0 ∨ (cons i).sense = 1)
    (sense0 : Int) (hs0 : sense0 = -1 ∨ sense0 = 0 ∨ sense0 = 1)
    (pairs : List (ℤ × ℚ)) (s : Int) (rhsDer : ℚ) (coefDer : List (ℕ × ℚ))
    (multDer : List (ℤ × ℚ))
    (h : readLinCombC cons sense0 pairs = some (s, rhsDer, coefDer, multDer)) :
    s = -1 ∨ s = 0 ∨ s = 1 := by
  unfold readLinCombC at h
  rcases hrm : readMultipliersGo cons sense0 [] pairs with _ | ⟨s2, m2⟩
  · rw [hrm] at h
    simp at h
  · rw [hrm] at h
    simp only [Option.some.injEq, Prod.mk.injEq] at h
    exact h.1 ▸ readMultipliersGo_sense_mem cons hsen pairs sense0 hs0 [] s2 m2 hrm

theorem assocAddNat_keys (i : ℕ) (v : ℚ) (l : List (ℕ × ℚ)) :
    ∀ q ∈ assocAddNat i v l, q.1 = i ∨ ∃ p ∈ l, q.1 = p.1 := by
  induction l with
  | nil =>
    intro q hq
    simp only [assocAddNat, List.mem_singleton] at hq
    left
    rw [hq]
  | cons p t ih =>
    intro q hq
    simp only [assocAddNat] at hq
    split_ifs at hq with h1 h2
    · rcases List.mem_cons.mp hq with rfl | hq
      · left; rfl
      · rcases List.mem_cons.mp hq with rfl | hq
        · exact Or.inr ⟨q, List.mem_cons_self _ _, rfl⟩
        · exact Or.inr ⟨q, List.mem_cons_of_mem _ hq, rfl⟩
    · rcases List.mem_cons.mp hq with rfl | hq
      · left; rfl
      · exact Or.inr ⟨q, List.mem_cons_of_mem _ hq, rfl⟩
    · rcases List.mem_cons.mp hq with rfl | hq
      · exact Or.inr ⟨q, List.mem_cons_self _ _, rfl⟩
      · rcases ih q hq with hq1 | ⟨r, hr, hq1⟩
        · exact Or.inl hq1
        · exact Or.inr ⟨r, List.mem_cons_of_mem _ hr, hq1⟩

theorem assocAddNat_sorted (i : ℕ) (v : ℚ) (l : List (ℕ × ℚ))
    (h : KeySorted l) : KeySorted (assocAddNat i v l) := by
  induction l with
  | nil => simp [assocAddNat, KeySorted]
  | cons p t ih =>
    rcases List.pairwise_cons.mp h with ⟨hp, ht⟩
    simp only [assocAddNat]
    split_ifs with h1 h2
    · refine List.pairwise_cons.mpr ⟨?_, h⟩
      intro q hq
      rcases List.mem_cons.mp hq with rfl | hq
      · exact h1
      · exact lt_trans h1 (hp q hq)
    · refine List.pairwise_cons.mpr ⟨?_, ht⟩
      intro q hq
      rw [h2]
      exact hp q hq
    · refine List.pairwise_cons.mpr ⟨?_, ih ht⟩
      intro q hq
      rcases assocAddNat_keys i v t q hq with hq1 | ⟨r, hr, hq1⟩
      · rw [hq1]; omega
      · rw [hq1]; exact hp r hr

theorem innerFold_sorted (a : ℚ) (vec : Vipr.SVec) (acc : List (ℕ × ℚ))
    (h : KeySorted acc) :
    KeySorted (vec.foldl (fun acc2 p => assocAddNat p.1 (a * p.2) acc2) acc) := by
  induction vec generalizing acc with
  | nil => exact h
  | cons p t ih => exact ih _ (assocAddNat_sorted p.1 (a * p.2) acc h)

theorem outerFold_sorted (cons : ℤ → ConS) (mult : List (ℤ × ℚ))
    (acc : List (ℕ × ℚ)) (h : KeySorted acc) :
    KeySorted (mult.foldl (fun acc q =>
      (cons q.1).vec.foldl (fun acc2 p => assocAddNat p.1 (q.2 * p.2) acc2) acc)
      acc) := by
  induction mult generalizing acc with
  | nil => exact h
  | cons q t ih => exact ih _ (innerFold_sorted q.2 (cons q.1).vec acc h)

theorem readLinCombC_sorted (cons : ℤ → ConS) (sense0 : Int)
    (pairs : List (ℤ × ℚ)) (s : Int) (rhsDer : ℚ) (coefDer : List (ℕ × ℚ))
    (multDer : List (ℤ × ℚ))
    (h : readLinCombC cons sense0 pairs = some (s, rhsDer, coefDer, multDer)) :
    KeySorted coefDer := by
  unfold readLinCombC at h
  rcases hrm : readMultipliersGo cons sense0 [] pairs with _ | ⟨s2, m2⟩
  · rw [hrm] at h
    simp at h
  · rw [hrm] at h
    simp only [Option.some.injEq, Prod.mk.injEq] at h
    rw [← h.2.2.1]
    exact outerFold_sorted cons m2 [] (by simp [KeySorted])

theorem assocGetInsert_keys (i : ℕ) (c : List (ℕ × ℚ)) :
    ∀ q ∈ (assocGetInsert i c).2, q.1 = i ∨ ∃ p ∈ c, q.1 = p.1 := by
  induction c with
  | nil =>
    intro q hq
    simp only [assocGetInsert, List.mem_singleton] at hq
    left
    rw [hq]
  | cons p t ih =>
    intro q hq
    simp only [assocGetInsert] at hq
    split_ifs at hq with h1 h2
    · rcases List.mem_cons.mp hq with rfl | hq
      · left; rfl
      · rcases List.mem_cons.mp hq with rfl | hq
        · exact Or.inr ⟨q, List.mem_cons_self _ _, rfl⟩
        · exact Or.inr ⟨q, List.mem_cons_of_mem _ hq, rfl⟩
    · rcases List.mem_cons.mp hq with rfl | hq
      · exact Or.inr ⟨q, List.mem_cons_self _ _, rfl⟩
      · exact Or.inr ⟨q, List.mem_cons_of_mem _ hq, rfl⟩
    · rcases List.mem_cons.mp hq with rfl | hq
      · exact Or.inr ⟨q, List.mem_cons_self _ _, rfl⟩
      · rcases ih q hq with hq1 | ⟨r, hr, hq1⟩
        · exact Or.inl hq1
        · exact Or.inr ⟨r, List.mem_cons_of_mem _ hr, hq1⟩

theorem assocGetInsert_fst (i : ℕ) (c : List (ℕ × ℚ)) (hs : KeySorted c) :
    (assocGetInsert i c).1 = Vipr.svLookup c i := by
  induction c with
  | nil => rfl
  | cons p t ih =>
    rcases List.pairwise_cons.mp hs with ⟨hp, ht⟩
    simp only [assocGetInsert]
    split_ifs with h1 h2
    · rw [svLookup_cons, if_neg (by omega),
        svLookup_zero t i (fun q hq => by have := hp q hq; omega)]
    · rw [svLookup_cons, if_pos h2.symm]
    · rw [svLookup_cons, if_neg (fun hh => h2 hh.symm)]
      exact ih ht

theorem assocGetInsert_lookup (i j : ℕ) (c : List (ℕ × ℚ))
    (hs : KeySorted c) :
    Vipr.svLookup (assocGetInsert i c).2 j = Vipr.svLookup c j := by
  induction c with
  | nil =>
    simp only [assocGetInsert, svLookup_cons]
    split_ifs with h
    · rfl
    · rfl
  | cons p t ih =>
    rcases List.pairwise_cons.mp hs with ⟨hp, ht⟩
    simp only [assocGetInsert]
    split_ifs with h1 h2
    · rw [svLookup_cons]
      by_cases hij : i = j
      · subst hij
        rw [if_pos rfl, svLookup_cons, if_neg (by omega),
          svLookup_zero t i (fun q hq => by have := hp q hq; omega)]
      · rw [if_neg hij]
    · rfl
    · rw [svLookup_cons, svLookup_cons]
      by_cases hpj : p.1 = j
      · rw [if_pos hpj, if_pos hpj]
      · rw [if_neg hpj, if_neg hpj]
        exact ih ht

theorem assocGetInsert_sorted (i : ℕ) (c : List (ℕ × ℚ))
    (hs : KeySorted c) : KeySorted (assocGetInsert i c).2 := by
  induction c with
  | nil => simp [assocGetInsert, KeySorted]
  | cons p t ih =>
    rcases List.pairwise_cons.mp hs with ⟨hp, ht⟩
    simp only [assocGetInsert]
    split_ifs with h1 h2
    · refine List.pairwise_cons.mpr ⟨?_, hs⟩
      intro q hq
      rcases List.mem_cons.mp hq with rfl | hq
      · exact h1
      · exact lt_trans h1 (hp q hq)
    · exact hs
    · refine List.pairwise_cons.mpr ⟨?_, ih ht⟩
      intro q hq
      rcases assocGetInsert_keys i t q hq with hq1 | ⟨r, hr, hq1⟩
      · rw [hq1]; omega
      · rw [hq1]; exact hp r hr

theorem loop1_some (row : Vipr.SVec) (lowerLoc upperLoc : List (ℕ × (ℤ × ℚ)))
    (lowerB upperB : ℕ → BoundInfo) (consense : Int)
    (hC : consense = -1 ∨ consense = 1) :
    ∀ l st, ∃ r,
      loop1 row lowerLoc upperLoc lowerB upperB consense l st = some r := by
  intro l
  induction l with
  | nil => exact fun st => ⟨([], st), rfl⟩
  | cons p t ih =>
    intro st
    obtain ⟨i, dv⟩ := p
    simp only [loop1]
    by_cases hd : dv = Vipr.svLookup row i
    · rw [if_pos hd]
      obtain ⟨r, hr⟩ := ih st
      rw [hr]
      exact ⟨_, rfl⟩
    · rw [if_neg hd, if_pos hC]
      obtain ⟨r, hr⟩ := ih
        (correctionStep lowerLoc upperLoc lowerB upperB consense i
          (Vipr.svLookup row i - dv) st)
      rw [hr]
      exact ⟨_, rfl⟩

theorem loop1_gap_free (row : Vipr.SVec)
    (lowerLoc upperLoc : List (ℕ × (ℤ × ℚ))) (lowerB upperB : ℕ → BoundInfo)
    (consense : Int) :
    ∀ l st, (∀ p ∈ l, p.2 = Vipr.svLookup row p.1) →
      loop1 row lowerLoc upperLoc lowerB upperB consense l st = some (l, st) := by
  intro l
  induction l with
  | nil => exact fun st _ => rfl
  | cons p t ih =>
    intro st h
    obtain ⟨i, dv⟩ := p
    have hd : dv = Vipr.svLookup row i := h (i, dv) (List.mem_cons_self _ _)
    simp only [loop1]
    rw [if_pos hd, ih st (fun q hq => h q (List.mem_cons_of_mem _ hq)), ← hd]

theorem loop1_gap_eq_none (row : Vipr.SVec)
    (lowerLoc upperLoc : List (ℕ × (ℤ × ℚ))) (lowerB upperB : ℕ → BoundInfo)
    (consense : Int) (hC : ¬ (consense = -1 ∨ consense = 1)) :
    ∀ l st, ¬ (∀ p ∈ l, p.2 = Vipr.svLookup row p.1) →
      loop1 row lowerLoc upperLoc lowerB upperB consense l st = none := by
  intro l
  induction l with
  | nil => exact fun st h => absurd (by simp) h
  | cons p t ih =>
    intro st h
    obtain ⟨i, dv⟩ := p
    simp only [loop1]
    by_cases hd : dv = Vipr.svLookup row i
    · rw [if_pos hd]
      have ht : ¬ ∀ q ∈ t, q.2 = Vipr.svLookup row q.1 := by
        intro hall
        refine h (fun q hq => ?_)
        rcases List.mem_cons.mp hq with rfl | hq
        · exact hd
        · exact hall q hq
      rw [ih st ht]
    · rw [if_neg hd, if_neg hC]

theorem loop2_some (row : Vipr.SVec) (lowerLoc upperLoc : List (ℕ × (ℤ × ℚ)))
    (lowerB upperB : ℕ → BoundInfo) (consense : Int)
    (hC : consense = -1 ∨ consense = 1) :
    ∀ entries c st, ∃ r,
      loop2 row lowerLoc upperLoc lowerB upperB consense entries c st = some r := by
  intro entries
  induction entries with
  | nil => exact fun c st => ⟨(c, st), rfl⟩
  | cons p t ih =>
    intro c st
    obtain ⟨i, v⟩ := p
    simp only [loop2]
    by_cases hd : (assocGetInsert i c).1 = Vipr.svLookup row i
    · rw [if_pos hd]
      exact ih _ st
    · rw [if_neg hd, if_pos hC]
      exact ih _ _

theorem loop2_gap_free (row : Vipr.SVec)
    (lowerLoc upperLoc : List (ℕ × (ℤ × ℚ))) (lowerB upperB : ℕ → BoundInfo)
    (consense : Int) :
    ∀ entries c st, KeySorted c →
      (∀ p ∈ entries, Vipr.svLookup c p.1 = Vipr.svLookup row p.1) →
      ∃ c2, loop2 row lowerLoc upperLoc lowerB upperB consense entries c st
        = some (c2, st) := by
  intro entries
  induction entries with
  | nil => exact fun c st _ _ => ⟨c, rfl⟩
  | cons p t ih =>
    intro c st hs h
    obtain ⟨i, v⟩ := p
    simp only [loop2]
    have hd : (assocGetInsert i c).1 = Vipr.svLookup row i := by
      rw [assocGetInsert_fst i c hs]
      exact h (i, v) (List.mem_cons_self _ _)
    rw [if_pos hd]
    exact ih (assocGetInsert i c).2 st (assocGetInsert_sorted i c hs)
      (fun q hq => by
        rw [assocGetInsert_lookup i q.1 c hs]
        exact h q (List.mem_cons_of_mem _ hq))

theorem loop2_gap_eq_none (row : Vipr.SVec)
    (lowerLoc upperLoc : List (ℕ × (ℤ × ℚ))) (lowerB upperB : ℕ → BoundInfo)
    (consense : Int) (hC : ¬ (consense = -1 ∨ consense = 1)) :
    ∀ entries c st, KeySorted c →
      ¬ (∀ p ∈ entries, Vipr.svLookup c p.1 = Vipr.svLookup row p.1) →
      loop2 row lowerLoc upperLoc lowerB upperB consense entries c st = none := by
  intro entries
  induction entries with
  | nil => exact fun c st _ h => absurd (by simp) h
  | cons p t ih =>
    intro c st hs h
    obtain ⟨i, v⟩ := p
    simp only [loop2]
    by_cases hd : (assocGetInsert i c).1 = Vipr.svLookup row i
    · rw [if_pos hd]
      refine ih _ st (assocGetInsert_sorted i c hs) (fun hall => h ?_)
      intro q hq
      rcases List.mem_cons.mp hq with hq | hq
      · rw [hq]
        show Vipr.svLookup c i = Vipr.svLookup row i
        rw [← assocGetInsert_fst i c hs]
        exact hd
      · rw [← assocGetInsert_lookup i q.1 c hs]
        exact hall q hq
    · rw [if_neg hd, if_neg hC]

theorem gap_free_iff (row coefDer : List (ℕ × ℚ)) (hs : KeySorted coefDer) :
    ((∀ p ∈ coefDer, p.2 = Vipr.svLookup row p.1) ∧
      (∀ p ∈ row, Vipr.svLookup coefDer p.1 = Vipr.svLookup row p.1)) ↔
    ∀ i, Vipr.svLookup coefDer i = Vipr.svLookup row i := by
  constructor
  · rintro ⟨h1, h2⟩ i
    by_cases hrow : ∀ q ∈ row, q.1 ≠ i
    · by_cases hcd : ∀ q ∈ coefDer, q.1 ≠ i
      · rw [svLookup_zero coefDer i hcd, svLookup_zero row i hrow]
      · push_neg at hcd
        obtain ⟨q, hq, hqi⟩ := hcd
        calc Vipr.svLookup coefDer i = Vipr.svLookup coefDer q.1 := by rw [hqi]
          _ = q.2 := svLookup_entry coefDer hs q hq
          _ = Vipr.svLookup row q.1 := h1 q hq
          _ = Vipr.svLookup row i := by rw [hqi]
    · push_neg at hrow
      obtain ⟨q, hq, hqi⟩ := hrow
      rw [← hqi]
      exact h2 q hq
  · intro hall
    refine ⟨fun p hp => ?_, fun p hp => hall p.1⟩
    rw [← svLookup_entry coefDer hs p hp]
    exact hall p.1

theorem weakFinal_neg (rhs q : ℚ) (row : Vipr.SVec) :
    ((if ((-1 : Int) = -1 ∧ rhs < q) ∨ ((-1 : Int) = 1 ∧ q < rhs) then
        (if row = [] then
          decide (((-1 : Int) = -1 ∧ q < 0) ∨ ((-1 : Int) = 1 ∧ 0 < q))
        else false)
      else true) = true) ↔ (q ≤ rhs ∨ (row = [] ∧ q < 0)) := by
  by_cases hbad : ((-1 : Int) = -1 ∧ rhs < q) ∨ ((-1 : Int) = 1 ∧ q < rhs)
  · rw [if_pos hbad]
    have hlt : rhs < q := by
      rcases hbad with ⟨_, h⟩ | ⟨h, _⟩
      · exact h
      · norm_num at h
    by_cases hrow : row = []
    · rw [if_pos hrow]
      simp only [decide_eq_true_eq]
      constructor
      · rintro (⟨_, h⟩ | ⟨h, _⟩)
        · exact Or.inr ⟨hrow, h⟩
        · norm_num at h
      · rintro (hle | ⟨_, hneg⟩)
        · linarith
        · exact Or.inl ⟨by norm_num, hneg⟩
    · rw [if_neg hrow]
      constructor
      · intro h
        exact absurd h (by simp)
      · rintro (hle | ⟨hr, _⟩)
        · linarith
        · exact absurd hr hrow
  · rw [if_neg hbad]
    have hle : ¬ rhs < q := fun h => hbad (Or.inl ⟨rfl, h⟩)
    exact iff_of_true rfl (Or.inl (le_of_not_lt hle))

theorem weakFinal_pos (rhs q : ℚ) (row : Vipr.SVec) :
    ((if ((1 : Int) = -1 ∧ rhs < q) ∨ ((1 : Int) = 1 ∧ q < rhs) then
        (if row = [] then
          decide (((1 : Int) = -1 ∧ q < 0) ∨ ((1 : Int) = 1 ∧ 0 < q))
        else false)
      else true) = true) ↔ (rhs ≤ q ∨ (row = [] ∧ 0 < q)) := by
  by_cases hbad : ((1 : Int) = -1 ∧ rhs < q) ∨ ((1 : Int) = 1 ∧ q < rhs)
  · rw [if_pos hbad]
    have hlt : q < rhs := by
      rcases hbad with ⟨h, _⟩ | ⟨_, h⟩
      · norm_num at h
      · exact h
    by_cases hrow : row = []
    · rw [if_pos hrow]
      simp only [decide_eq_true_eq]
      constructor
      · rintro (⟨h, _⟩ | ⟨_, h⟩)
        · norm_num at h
        · exact Or.inr ⟨hrow, h⟩
      · rintro (hle | ⟨_, hpos⟩)
        · linarith
        · exact Or.inr ⟨by norm_num, hpos⟩
    · rw [if_neg hrow]
      constructor
      · intro h
        exact absurd h (by simp)
      · rintro (hle | ⟨hr, _⟩)
        · linarith
        · exact absurd hr hrow
  · rw [if_neg hbad]
    have hle : ¬ q < rhs := fun h => hbad (Or.inr ⟨rfl, h⟩)
    exact iff_of_true rfl (Or.inl (le_of_not_lt hle))

/-- C7 (amended).  Success characterisation of
`completeWeakDomination`: with the claimed sense and every cited sense in
{-1, 0, 1}, weak completion succeeds iff the multipliers read without a
sign conflict, yielding the effective sense `s` (the claimed sense, or,
when the claimed sense is 0, the sense implied by the multipliers), and
then: when `s = 0` (an equality chain) exactly when there is no
coefficient gap between the derived and the claimed row — the corrected
side is never compared against the claimed one; and when `s = ±1` exactly
when, after correcting both coefficient-gap directions with variable
bounds, the corrected right-hand side is at most the claimed one (for
`s = -1`), at least the claimed one (for `s = 1`), or the claimed
coefficient vector is empty and the corrected side has the correct
infeasibility sign.  In particular an equality-sense claim with a
coefficient gap is weak-completed exactly when its multipliers imply a
nonzero effective sense. -/
theorem completeWeakDomination_success_iff (cons : ℤ → ConS)
    (lowerLoc upperLoc : List (ℕ × (ℤ × ℚ))) (lowerB upperB : ℕ → BoundInfo)
    (row : Vipr.SVec) (consense0 : Int) (rhs : ℚ) (pairs : List (ℤ × ℚ))
    (hs0 : consense0 = -1 ∨ consense0 = 0 ∨ consense0 = 1)
    (hsen : ∀ i : ℤ,
      (cons i).sense = -1 ∨ (cons i).sense = 0 ∨ (cons i).sense = 1) :
    completeWeakDomination cons lowerLoc upperLoc lowerB upperB row consense0
        rhs pairs = true ↔
      ∃ s rhsDer coefDer multDer,
        readLinCombC cons consense0 pairs
            = some (s, rhsDer, coefDer, multDer) ∧
        ((s = 0 ∧ ∀ i, Vipr.svLookup coefDer i = Vipr.svLookup row i) ∨
         ∃ q, weakCorrected cons lowerLoc upperLoc lowerB upperB row consense0
              pairs = some q ∧
           ((s = -1 ∧ (q ≤ rhs ∨ (row = [] ∧ q < 0))) ∨
            (s = 1 ∧ (rhs ≤ q ∨ (row = [] ∧ 0 < q))))) := by
  rcases hrlc : readLinCombC cons consense0 pairs with _ |
    ⟨s, rhsDer, coefDer, multDer⟩
  · refine iff_of_false ?_ ?_
    · intro h
      unfold completeWeakDomination at h
      rw [hrlc] at h
      simp at h
    · rintro ⟨s, r, c, m, heq, _⟩
      exact absurd heq (by simp)
  · have hsmem := readLinCombC_sense_mem cons hsen consense0 hs0 pairs s
      rhsDer coefDer multDer hrlc
    have hsorted := readLinCombC_sorted cons consense0 pairs s rhsDer coefDer
      multDer hrlc
    have hpack : ∀ P : Int → List (ℕ × ℚ) → Prop,
        ((∃ s2 r2 c2 m2, (some (s, rhsDer, coefDer, multDer) :
              Option (Int × ℚ × List (ℕ × ℚ) × List (ℤ × ℚ)))
            = some (s2, r2, c2, m2) ∧ P s2 c2) ↔ P s coefDer) := by
      intro P
      constructor
      · rintro ⟨s2, r2, c2, m2, heq, hp⟩
        simp only [Option.some.injEq, Prod.mk.injEq] at heq
        obtain ⟨rfl, rfl, rfl, rfl⟩ := heq
        exact hp
      · intro hp
        exact ⟨s, rhsDer, coefDer, multDer, rfl, hp⟩
    refine Iff.trans ?_ (hpack (fun s2 c2 =>
      (s2 = 0 ∧ ∀ i, Vipr.svLookup c2 i = Vipr.svLookup row i) ∨
      ∃ q, weakCorrected cons lowerLoc upperLoc lowerB upperB row consense0
          pairs = some q ∧
        ((s2 = -1 ∧ (q ≤ rhs ∨ (row = [] ∧ q < 0))) ∨
         (s2 = 1 ∧ (rhs ≤ q ∨ (row = [] ∧ 0 < q)))))).symm
    rcases hsmem with hs | hs | hs
    · -- effective sense -1
      subst hs
      obtain ⟨r1, hl1⟩ := loop1_some row lowerLoc upperLoc lowerB upperB (-1)
        (Or.inl rfl) coefDer ⟨rhsDer, multDer⟩
      obtain ⟨r2, hl2⟩ := loop2_some row lowerLoc upperLoc lowerB upperB (-1)
        (Or.inl rfl) row r1.1 r1.2
      have hwc : weakCorrected cons lowerLoc upperLoc lowerB upperB row
          consense0 pairs = some r2.2.corrected := by
        unfold weakCorrected
        simp only [hrlc, hl1, hl2]
      have hcw : completeWeakDomination cons lowerLoc upperLoc lowerB upperB
          row consense0 rhs pairs
          = (if ((-1 : Int) = -1 ∧ rhs < r2.2.corrected) ∨
                ((-1 : Int) = 1 ∧ r2.2.corrected < rhs) then
              (if row = [] then
                decide (((-1 : Int) = -1 ∧ r2.2.corrected < 0) ∨
                  ((-1 : Int) = 1 ∧ 0 < r2.2.corrected))
              else false)
            else true) := by
        unfold completeWeakDomination
        simp only [hrlc, hl1, hl2]
      rw [hcw, weakFinal_neg rhs r2.2.corrected row]
      constructor
      · intro h
        exact Or.inr ⟨r2.2.corrected, hwc, Or.inl ⟨rfl, h⟩⟩
      · rintro (⟨habs, _⟩ | ⟨q, hq, (⟨_, hcond⟩ | ⟨habs, _⟩)⟩)
        · exact absurd habs (by norm_num)
        · rw [hwc] at hq
          rw [Option.some.inj hq]
          exact hcond
        · exact absurd habs (by norm_num)
    · -- effective sense 0
      subst hs
      have hC : ¬ ((0 : Int) = -1 ∨ (0 : Int) = 1) := by norm_num
      by_cases h1 : ∀ p ∈ coefDer, p.2 = Vipr.svLookup row p.1
      · have hgap1 := loop1_gap_free row lowerLoc upperLoc lowerB upperB 0
          coefDer ⟨rhsDer, multDer⟩ h1
        by_cases h2 : ∀ p ∈ row,
            Vipr.svLookup coefDer p.1 = Vipr.svLookup row p.1
        · obtain ⟨c2, hl2⟩ := loop2_gap_free row lowerLoc upperLoc lowerB
            upperB 0 row coefDer ⟨rhsDer, multDer⟩ hsorted h2
          have hcw : completeWeakDomination cons lowerLoc upperLoc lowerB
              upperB row consense0 rhs pairs = true := by
            unfold completeWeakDomination
            simp only [hrlc, hgap1, hl2]
            norm_num
          exact iff_of_true hcw
            (Or.inl ⟨rfl, (gap_free_iff row coefDer hsorted).mp ⟨h1, h2⟩⟩)
        · have hcw : completeWeakDomination cons lowerLoc upperLoc lowerB
              upperB row consense0 rhs pairs = false := by
            unfold completeWeakDomination
            simp only [hrlc, hgap1,
              loop2_gap_eq_none row lowerLoc upperLoc lowerB upperB 0 hC row
                coefDer ⟨rhsDer, multDer⟩ hsorted h2]
          refine iff_of_false (by simp [hcw]) ?_
          rintro (⟨_, hall⟩ | ⟨q, hq, (⟨habs, _⟩ | ⟨habs, _⟩)⟩)
          · exact h2 ((gap_free_iff row coefDer hsorted).mpr hall).2
          · exact absurd habs (by norm_num)
          · exact absurd habs (by norm_num)
      · have hcw : completeWeakDomination cons lowerLoc upperLoc lowerB
            upperB row consense0 rhs pairs = false := by
          unfold completeWeakDomination
          simp only [hrlc,
            loop1_gap_eq_none row lowerLoc upperLoc lowerB upperB 0 hC
              coefDer ⟨rhsDer, multDer⟩ h1]
        refine iff_of_false (by simp [hcw]) ?_
        rintro (⟨_, hall⟩ | ⟨q, hq, (⟨habs, _⟩ | ⟨habs, _⟩)⟩)
        · exact h1 ((gap_free_iff row coefDer hsorted).mpr hall).1
        · exact absurd habs (by norm_num)
        · exact absurd habs (by norm_num)
    · -- effective sense 1
      subst hs
      obtain ⟨r1, hl1⟩ := loop1_some row lowerLoc upperLoc lowerB upperB 1
        (Or.inr rfl) coefDer ⟨rhsDer, multDer⟩
      obtain ⟨r2, hl2⟩ := loop2_some row lowerLoc upperLoc lowerB upperB 1
        (Or.inr rfl) row r1.1 r1.2
      have hwc : weakCorrected cons lowerLoc upperLoc lowerB upperB row
          consense0 pairs = some r2.2.corrected := by
        unfold weakCorrected
        simp only [hrlc, hl1, hl2]
      have hcw : completeWeakDomination cons lowerLoc upperLoc lowerB upperB
          row consense0 rhs pairs
          = (if ((1 : Int) = -1 ∧ rhs < r2.2.corrected) ∨
                ((1 : Int) = 1 ∧ r2.2.corrected < rhs) then
              (if row = [] then
                decide (((1 : Int) = -1 ∧ r2.2.corrected < 0) ∨
                  ((1 : Int) = 1 ∧ 0 < r2.2.corrected))
              else false)
            else true) := by
        unfold completeWeakDomination
        simp only [hrlc, hl1, hl2]
      rw [hcw, weakFinal_pos rhs r2.2.corrected row]
      constructor
      · intro h
        exact Or.inr ⟨r2.2.corrected, hwc, Or.inr ⟨rfl, h⟩⟩
      · rintro (⟨habs, _⟩ | ⟨q, hq, (⟨habs, _⟩ | ⟨_, hcond⟩)⟩)
        · exact absurd habs (by norm_num)
        · exact absurd habs (by norm_num)
        · rw [hwc] at hq
          rw [Option.some.inj hq]
          exact hcond

/-- C7 witness.  The amended success characterisation applied at the
concrete equality-chain step of the counterexample: claimed `x = 5` from
the cited `x = 3` with multiplier 1 — no coefficient gap, effective sense
0, weak completion succeeds. -/
theorem completeWeakDomination_success_iff_witness :
    completeWeakDomination (fun _ => ⟨[(0, 1)], 3, 0⟩) [] []
      (fun _ => ⟨0, 1, -1⟩) (fun _ => ⟨0, 1, -1⟩) [(0, 1)] 0 5 [(0, 1)]
      = true :=
  (completeWeakDomination_success_iff (fun _ => ⟨[(0, 1)], 3, 0⟩) [] []
      (fun _ => ⟨0, 1, -1⟩) (fun _ => ⟨0, 1, -1⟩) [(0, 1)] 0 5 [(0, 1)]
      (Or.inr (Or.inl rfl)) (fun _ => Or.inr (Or.inl rfl))).mpr
    ⟨0, 3, [(0, 1)], [(0, 1)],
      by norm_num [readLinCombC, readMultipliersGo, Vipr.assocSet, Vipr.qsgn,
        assocAddNat],
      Or.inl ⟨rfl, fun i => rfl⟩⟩

/-- C7 counterexample.  A weak `lin` step claiming the equality
constraint `x = 5` from the single cited equality `x = 3` with multiplier
1: no coefficient gap arises, the effective sense stays 0, and
`completeWeakDomination` succeeds although the corrected side is 3 and the
claim's success condition — claimed sense `≤` with `corrected ≤ rhs`, or
claimed sense `≥` with `corrected ≥ rhs`, or an empty claimed row with
the correct infeasibility sign — is false at the claimed sense 0, the
nonempty row, corrected side 3 and claimed right-hand side 5.  The claim
also says an equality-sense claim is never weak-completed. -/
theorem weak_equality_claim_cex :
    completeWeakDomination (fun _ => ⟨[(0, 1)], 3, 0⟩) [] []
        (fun _ => ⟨0, 1, -1⟩) (fun _ => ⟨0, 1, -1⟩) [(0, 1)] 0 5 [(0, 1)]
      = true
    ∧ weakCorrected (fun _ => ⟨[(0, 1)], 3, 0⟩) [] []
        (fun _ => ⟨0, 1, -1⟩) (fun _ => ⟨0, 1, -1⟩) [(0, 1)] 0 [(0, 1)]
      = some 3
    ∧ ¬ weakClaimCondition 0 false 3 5 := by
  refine ⟨?_, ?_, by decide⟩
  · norm_num [completeWeakDomination, readLinCombC, readMultipliersGo,
      Vipr.assocSet, Vipr.qsgn, assocAddNat, loop1, loop2, assocGetInsert,
      Vipr.svLookup]
  · norm_num [weakCorrected, readLinCombC, readMultipliersGo,
      Vipr.assocSet, Vipr.qsgn, assocAddNat, loop1, loop2, assocGetInsert,
      Vipr.svLookup]

end Viprcomp
